import Mathlib

/-!
Verification of the tomorin chat-driven remote-execution front end.

The Rust sources (src/bot/client.rs, src/eval/run.rs, src/eval/mod.rs,
src/eval/types.rs) are embedded shallowly: strings are lists of characters
(`Str`), pure Rust functions become Lean functions of the same name, and the
stateful subprocess/render loop becomes an explicit step function over a
state record driven by a schedule of select-branch picks.
-/

namespace Tomorin

/-- Strings are modelled as lists of characters (Rust `str` ≈ sequence of
`char`s; we never need byte-level behaviour). -/
abbrev Str := List Char

/-- Converts a Lean string literal to the `Str` model. -/
def str (x : String) : Str := x.data

/-- Rust `char::is_whitespace` (the Unicode `White_Space` property). -/
def isRustWhitespace (c : Char) : Bool :=
  let v := c.toNat
  (0x09 ≤ v && v ≤ 0x0D) || v = 0x20 || v = 0x85 || v = 0xA0 || v = 0x1680 ||
  (0x2000 ≤ v && v ≤ 0x200A) || v = 0x2028 || v = 0x2029 || v = 0x202F ||
  v = 0x205F || v = 0x3000

/-- Rust `str::trim_start` restricted to what the sources use. -/
def trimStart (s : Str) : Str := s.dropWhile isRustWhitespace

/-- Rust `str::trim`: drop Unicode whitespace from both ends. -/
def trim (s : Str) : Str :=
  ((s.dropWhile isRustWhitespace).reverse.dropWhile isRustWhitespace).reverse

/-- Substring test, Rust `str::contains` with a string pattern. -/
def containsSub (pat : Str) : Str → Bool
  | [] => pat.isPrefixOf ([] : Str)
  | c :: rest => pat.isPrefixOf (c :: rest) || containsSub pat rest

/-- Fuelled worker for `countSub`. -/
def countSubGo (pat : Str) : Nat → Str → Nat
  | 0, _ => 0
  | _ + 1, [] => 0
  | fuel + 1, c :: rest =>
    if pat ≠ [] ∧ pat.isPrefixOf (c :: rest) then
      1 + countSubGo pat fuel ((c :: rest).drop pat.length)
    else
      countSubGo pat fuel rest

/-- Number of non-overlapping, leftmost-first occurrences of `pat`. -/
def countSub (pat s : Str) : Nat := countSubGo pat s.length s

/-- Fuelled worker for `stripAllPfx`. -/
def stripAllPfxGo (p : Str) : Nat → Str → Str
  | 0, s => s
  | fuel + 1, s =>
    if p ≠ [] ∧ p.isPrefixOf s then stripAllPfxGo p fuel (s.drop p.length) else s

/-- Rust `str::trim_start_matches`: removes every consecutive leading
occurrence of the pattern `p`. -/
def stripAllPfx (p s : Str) : Str := stripAllPfxGo p s.length s

/-! ## src/eval/run.rs: `normalize_unicode_chars` -/

/-- The `UNICODE_CHARS_MAP` table of src/eval/run.rs (a `phf_map`). -/
def unicodeCharsMap (c : Char) : Option Str :=
  if c = '“' then some ['"']
  else if c = '”' then some ['"']
  else if c = '‘' then some ['\'']
  else if c = '’' then some ['\'']
  else if c = '—' then some ['-', '-']
  else if c = ' ' then some [' ']
  else none

/-- src/eval/run.rs `normalize_unicode_chars`: identity fast path on pure
ASCII input, otherwise a per-character rewrite through `unicodeCharsMap`. -/
def normalize_unicode_chars (input : Str) : Str :=
  if input.all (fun c => c.toNat < 128) then input
  else input.foldr (fun c acc => ((unicodeCharsMap c).getD [c]) ++ acc) []

/-! ## src/bot/client.rs: edit-failure handling (`edit_eval_msg` /
`edit_pre_msg`, the `match m.edit(msg).await` arms) -/

/-- The `grammers_client::InvocationError` cases distinguished by the match
arms in src/bot/client.rs: an RPC error carrying a name, or any other
transport/session error (collapsed to one tagged constructor, since the code
treats them uniformly). -/
inductive InvocationError
  | rpc (name : Str)
  | other (tag : Nat)
deriving DecidableEq

/-- Result of the `m.edit(msg).await` call. -/
inductive EditOutcome
  | ok
  | err (e : InvocationError)
deriving DecidableEq

/-- The shared match arms of `edit_eval_msg` (client.rs lines 169–175) and
`edit_pre_msg` (lines 199–205): an RPC error named `MESSAGE_NOT_MODIFIED` is
swallowed, any other error propagates, success stays success. -/
def editResultHandler : EditOutcome → Except InvocationError Unit
  | .ok => .ok ()
  | .err (.rpc name) =>
    if name = str "MESSAGE_NOT_MODIFIED" then .ok () else .error (.rpc name)
  | .err e => .error e

/-! ## Theorems for C8 and C9 -/

/-- C9: for every input string composed purely of ASCII characters,
`normalize_unicode_chars` is the identity function. -/
theorem normalize_ascii_id (input : Str)
    (h : ∀ c ∈ input, c.toNat < 128) :
    normalize_unicode_chars input = input := by
  unfold normalize_unicode_chars
  rw [if_pos]
  exact List.all_eq_true.mpr (fun c hc => decide_eq_true (h c hc))

/-- C9 witness: the ASCII string "abc" is returned unchanged. -/
theorem normalize_ascii_id_witness :
    normalize_unicode_chars (str "abc") = str "abc" :=
  normalize_ascii_id (str "abc") (by decide)

/-- C8: an edit failure is swallowed (mapped to success) exactly when it is
the RPC error `MESSAGE_NOT_MODIFIED` (or the edit itself succeeded); every
other failure propagates to the caller unchanged. -/
theorem edit_not_modified_swallowed :
    (∀ r : EditOutcome, editResultHandler r = .ok () ↔
      (r = .ok ∨ r = .err (.rpc (str "MESSAGE_NOT_MODIFIED")))) ∧
    (∀ e : InvocationError,
      editResultHandler (.err e) = .ok () ∨ editResultHandler (.err e) = .error e) := by
  constructor
  · intro r
    match r with
    | .ok => simp [editResultHandler]
    | .err (.rpc name) =>
      by_cases h : name = str "MESSAGE_NOT_MODIFIED" <;>
        simp [editResultHandler, h]
    | .err (.other t) => simp [editResultHandler]
  · intro e
    match e with
    | .rpc name =>
      by_cases h : name = str "MESSAGE_NOT_MODIFIED" <;>
        simp [editResultHandler, h]
    | .other t => simp [editResultHandler]

/-! ## src/bot/client.rs: command router (`update`, lines 90–137) -/

/-- The dispatch chosen by `update` for a message text: which handler is
invoked and with what argument. -/
inductive Dispatch
  | repeatMsg
  | eval (code : Str)
  | cmd (c : Str)
  | help
  | status
deriving DecidableEq

/-- `CMD_PREFIXES: [&str; 4] = [",", "，", ".", "。"]`. -/
def CMD_PREFIXES : List Str := [[','], ['，'], ['.'], ['。']]

/-- `REPEAT: &str = "+"`. -/
def REPEAT : Str := ['+']

/-- `EVAL: &str = "r#"`. -/
def EVAL : Str := ['r', '#']

/-- `HELP: &str = "h#"`. -/
def HELP : Str := ['h', '#']

/-- `STATUS: &str = "s#"`. -/
def STATUS : Str := ['s', '#']

/-- The routing logic of `update` (client.rs lines 102–131): the chain of
early-returning text tests, with arguments stripped via
`trim_start_matches` exactly as the source does. -/
def route (text : Str) : Option Dispatch :=
  if text = REPEAT then some .repeatMsg
  else if EVAL.isPrefixOf text then some (.eval (stripAllPfx EVAL text))
  else
    match CMD_PREFIXES.find? (fun p => p.isPrefixOf text) with
    | some p => some (.cmd (stripAllPfx p text))
    | none =>
      if HELP.isPrefixOf text then some .help
      else if STATUS.isPrefixOf text then some .status
      else none

/-- `update` including the sender-identity guard (`a.id() == self.me.id()`):
non-trusted senders produce no dispatch at all. -/
def updateDispatch (senderIsMe : Bool) (text : Str) : Option Dispatch :=
  if senderIsMe then route text else none

/-- Modelled from the spec's claim for the router (C6): an ordered rule
list — exact "+", then "r#", then the four shell prefixes in iteration
order, then "h#", then "s#" — of which the first matching rule fires. -/
def routeSpecRules (text : Str) : List (Bool × Dispatch) :=
  [ (decide (text = REPEAT), .repeatMsg),
    (EVAL.isPrefixOf text, .eval (stripAllPfx EVAL text)),
    (([','] : Str).isPrefixOf text, .cmd (stripAllPfx [','] text)),
    ((['，'] : Str).isPrefixOf text, .cmd (stripAllPfx ['，'] text)),
    ((['.'] : Str).isPrefixOf text, .cmd (stripAllPfx ['.'] text)),
    ((['。'] : Str).isPrefixOf text, .cmd (stripAllPfx ['。'] text)),
    (HELP.isPrefixOf text, .help),
    (STATUS.isPrefixOf text, .status) ]

/-- Modelled from the spec's claim for the router (C6): first matching rule
wins; text matching no rule produces no dispatch. -/
def routeSpec (text : Str) : Option Dispatch :=
  ((routeSpecRules text).find? (fun r => r.1)).map (fun r => r.2)

/-- Rust `str::split_whitespace` (used by `handle_cmd` to split the command
string into program and arguments): splits on Unicode whitespace, discarding
empty fragments. `cur` is the current fragment accumulated in reverse. -/
def splitWsGo (cur : Str) : Str → List Str
  | [] => if cur = [] then [] else [cur.reverse]
  | c :: rest =>
    if isRustWhitespace c then
      (if cur = [] then [] else [cur.reverse]) ++ splitWsGo [] rest
    else splitWsGo (c :: cur) rest

/-- Rust `str::split_whitespace` over the whole string. -/
def splitWs (s : Str) : List Str := splitWsGo [] s

/-! ## Theorems for C6 and C10 -/

/-- C6: for a message from the trusted identity, at most one handler fires,
chosen by first match in priority order (exact "+", prefix "r#", the shell
prefixes ",", "，", ".", "。" in iteration order, then "h#", then "s#");
unmatched text produces no dispatch; non-trusted senders never dispatch. -/
theorem route_first_match_priority :
    ∀ text : Str, updateDispatch true text = routeSpec text ∧
      updateDispatch false text = none := by
  intro text
  refine ⟨?_, rfl⟩
  show route text = routeSpec text
  unfold route routeSpec routeSpecRules CMD_PREFIXES
  by_cases h1 : text = REPEAT
  · simp [h1, List.find?]
  by_cases h2 : EVAL.isPrefixOf text
  · simp [h1, h2, List.find?]
  by_cases h3 : ([','] : Str).isPrefixOf text
  · simp [h1, h2, h3, List.find?]
  by_cases h4 : (['，'] : Str).isPrefixOf text
  · simp [h1, h2, h3, h4, List.find?]
  by_cases h5 : (['.'] : Str).isPrefixOf text
  · simp [h1, h2, h3, h4, h5, List.find?]
  by_cases h6 : (['。'] : Str).isPrefixOf text
  · simp [h1, h2, h3, h4, h5, h6, List.find?]
  by_cases h7 : HELP.isPrefixOf text
  · simp [h1, h2, h3, h4, h5, h6, h7, List.find?]
  by_cases h8 : STATUS.isPrefixOf text
  · simp [h1, h2, h3, h4, h5, h6, h7, h8, List.find?]
  · simp [h1, h2, h3, h4, h5, h6, h7, h8, List.find?]

/-- C10: the router strips every consecutive leading occurrence of the
matched marker (`trim_start_matches` semantics): every "r#"-prefixed text
evaluates the text with all leading "r#" copies removed, every ","-prefixed
text runs the command with all leading "," copies removed; concretely,
"r#r#x" evaluates "x" and ",,ls" executes program "ls". -/
theorem route_strips_all_leading_markers :
    (∀ s : Str, route ('r' :: '#' :: s) =
        some (.eval (stripAllPfx EVAL ('r' :: '#' :: s)))) ∧
    (∀ s : Str, route (',' :: s) =
        some (.cmd (stripAllPfx [','] (',' :: s)))) ∧
    route (str "r#r#x") = some (.eval (str "x")) ∧
    route (str ",,ls") = some (.cmd (str "ls")) ∧
    splitWs (stripAllPfx [','] (str ",,ls")) = [str "ls"] := by
  refine ⟨?_, ?_, by decide, by decide, by decide⟩
  · intro s
    unfold route
    rw [if_neg (by simp [REPEAT]), if_pos (by simp [EVAL, List.isPrefixOf])]
  · intro s
    unfold route
    rw [if_neg (by simp [REPEAT]), if_neg (by simp [EVAL, List.isPrefixOf])]
    simp [CMD_PREFIXES, List.find?, List.isPrefixOf]

/-! ## src/eval/run.rs: `extract_code_headers` (lines 87–123)

The `combine` parser is embedded as functions from input to an optional
consumed-character count (`some n` = success consuming `n` characters).
`attempt` is the identity here: every failure is all-or-nothing because the
only parsers that can fail after consuming input occur inside `attempt`, so
the consumed-failure/plain-failure distinction of `combine` is not
observable.  `recognize` returns the consumed count, from which the
(header, body) split is taken. -/

/-- A parser: input characters to optional consumed count. -/
abbrev Psr := Str → Option Nat

/-- Sequencing of two parsers (`(p, q)` tuples in `combine`). -/
def pSeq (p q : Psr) : Psr := fun s =>
  match p s with
  | none => none
  | some n =>
    match q (s.drop n) with
    | none => none
    | some m => some (n + m)

/-- `combine` `token(c)`. -/
def pTok (c : Char) : Psr := fun s =>
  match s with
  | x :: _ => if x = c then some 1 else none
  | [] => none

/-- `combine` `none_of(cs)`. -/
def pNoneOf (cs : List Char) : Psr := fun s =>
  match s with
  | x :: _ => if cs.contains x then none else some 1
  | [] => none

/-- `combine` `string(t)`. -/
def pStr (t : Str) : Psr := fun s =>
  if t.isPrefixOf s then some t.length else none

/-- `combine` `space()` (Rust `char::is_whitespace`). -/
def pSpace : Psr := fun s =>
  match s with
  | x :: _ => if isRustWhitespace x then some 1 else none
  | [] => none

/-- `combine` `alpha_num()` (Rust `char::is_alphanumeric`; the model
restricts the Unicode class to its ASCII part, which is all the sources'
crate-name characters ever exercise). -/
def pAlphaNum : Psr := fun s =>
  match s with
  | x :: _ => if x.isAlphanum then some 1 else none
  | [] => none

/-- `combine` `choice((p, q))` over two alternatives (both alternatives in
the source are wrapped in `attempt`, so plain failure-try-next semantics is
faithful). -/
def pChoice (p q : Psr) : Psr := fun s =>
  match p s with
  | some n => some n
  | none => q s

/-- Fuelled worker for `pSkipMany`: runs `p` repeatedly while it succeeds
consuming input, accumulating the consumed count. -/
def pSkipManyGo (p : Psr) : Nat → Str → Nat
  | 0, _ => 0
  | fuel + 1, s =>
    match p s with
    | some n => if n = 0 then 0 else n + pSkipManyGo p fuel (s.drop n)
    | none => 0

/-- `combine` `skip_many(p)`: never fails (every inner parser of the source
that can fail after consuming is behind `attempt`). -/
def pSkipMany (p : Psr) : Psr := fun s => some (pSkipManyGo p s.length s)

/-- `spaces()` = `skip_many(space())`. -/
def pSpaces : Psr := pSkipMany pSpace

/-- `skip_many1(p)` = `p` then `skip_many(p)`. -/
def pSkipMany1 (p : Psr) : Psr := pSeq p (pSkipMany p)

/-- `spaces1 = (space(), spaces())`. -/
def pSpaces1 : Psr := pSeq pSpace pSpaces

/-- `attr_content = (token('['), skip_many(none_of("]")), token(']'))`. -/
def pAttrContent : Psr :=
  pSeq (pTok '[') (pSeq (pSkipMany (pNoneOf [']'])) (pTok ']'))

/-- `outer_attr = (token('#'), spaces(), attr_content())`. -/
def pOuterAttr : Psr := pSeq (pTok '#') (pSeq pSpaces pAttrContent)

/-- `inner_attr = (token('#'), spaces(), token('!'), spaces(),
attr_content())`. -/
def pInnerAttr : Psr :=
  pSeq (pTok '#') (pSeq pSpaces (pSeq (pTok '!') (pSeq pSpaces pAttrContent)))

/-- `extern_crate = (skip_many(outer_attr), spaces(), string("extern"),
spaces1(), string("crate"), spaces1(), skip_many1(alpha_num | '_'),
spaces(), token(';'))`. -/
def pExternCrate : Psr :=
  pSeq (pSkipMany pOuterAttr)
    (pSeq pSpaces
      (pSeq (pStr (str "extern"))
        (pSeq pSpaces1
          (pSeq (pStr (str "crate"))
            (pSeq pSpaces1
              (pSeq (pSkipMany1 (pChoice pAlphaNum (pTok '_')))
                (pSeq pSpaces (pTok ';'))))))))

/-- `header = recognize((spaces(), skip_many((choice((attempt(extern_crate),
attempt(inner_attr))), spaces()))))`. -/
def pHeader : Psr :=
  pSeq pSpaces
    (pSkipMany (pSeq (pChoice pExternCrate pInnerAttr) pSpaces))

/-- src/eval/run.rs `extract_code_headers`: run the header parser; on
success split the input at the consumed count (`recognize` output,
remaining input); the `unwrap_or_else` fallback returns an empty header
with the full input as body. -/
def extract_code_headers (code : Str) : Str × Str :=
  match pHeader code with
  | some n => (code.take n, code.drop n)
  | none => ([], code)

/-! ## Theorems for C5 -/

/-- The header parser never fails: `spaces` and the outer `skip_many` are
total by construction. -/
theorem pHeader_total (s : Str) : ∃ n, pHeader s = some n := by
  unfold pHeader pSeq pSpaces pSkipMany
  exact ⟨_, rfl⟩

/-- Helper: the extracted (header, body) pair always concatenates back to
the input, in both the success arm and the fallback arm. -/
theorem extract_split (code : Str) :
    (extract_code_headers code).1 ++ (extract_code_headers code).2 = code := by
  unfold extract_code_headers
  obtain ⟨n, hn⟩ := pHeader_total code
  rw [hn]
  exact List.take_append_drop n code

/-- C5: header extraction is total and never surfaces an error: for every
input, `extract_code_headers` returns a (header, body) pair that exactly
splits the input (and the internal parser in fact always succeeds, the
unwrap fallback — empty header, full text as body — being the shape of the
failure arm of the definition). -/
theorem extract_code_headers_total_split (code : Str) :
    (pHeader code).isSome ∧
      (extract_code_headers code).1 ++ (extract_code_headers code).2 = code := by
  obtain ⟨n, hn⟩ := pHeader_total code
  exact ⟨by rw [hn]; rfl, extract_split code⟩

/-! ## src/eval/run.rs: `generate_code_to_send` (lines 38–76) -/

/-- A single newline, the separator the `template!` macro appends after
every line. -/
def nl : Str := ['\n']

/-- src/eval/run.rs `generate_code_to_send`.  `prelude` stands for the
`include_str!("prelude.res.rs")` constant: that file is not among the
sources, so the prelude text is kept as a parameter (the claims hold for
every prelude).  Braces from the Rust templates appear as `\x7b`/`\x7d`
escapes.  Note the print branch wraps `code` — the full original input —
while the non-print branch wraps `body`. -/
def generate_code_to_send (prelude code : Str) : Str :=
  if containsSub (str "fn main()") code then code
  else
    let header := (extract_code_headers code).1
    let body := (extract_code_headers code).2
    let wrapped :=
      if containsSub (str "println!") body || containsSub (str "print!") body then
        str "\x7b\n" ++ code ++ str "\n\x7d;"
      else
        str "println!(\"\x7b:?\x7d\", \x7b\n        " ++ body ++
          str "\n    \x7d);\n"
    str "#![allow(warnings)]\n" ++ header ++ nl ++ prelude ++
      str "\nfn main() -> Result<(), Box<dyn std::error::Error>> \x7b\n    " ++
      wrapped ++ str "\n    Ok(())\n\x7d\n"

/-! ## Theorems for C3 -/

set_option maxRecDepth 100000 in
/-- C3 counterexample: for the snippet `extern crate rand;` + a `println!`
body, the block statement wraps the full original text — header included —
so the header text occurs twice in the compile unit (once outside the
block, once inside it), not once as the claim states; the block content is
not the body alone. -/
theorem generate_code_wraps_full_text_not_body :
    countSub (str "extern crate rand;")
        (generate_code_to_send []
          (str "extern crate rand;\nprintln!(\"x\")")) = 2 ∧
      generate_code_to_send [] (str "extern crate rand;\nprintln!(\"x\")") =
        str "#![allow(warnings)]\nextern crate rand;\n\n\nfn main() -> Result<(), Box<dyn std::error::Error>> \x7b\n    \x7b\nextern crate rand;\nprintln!(\"x\")\n\x7d;\n    Ok(())\n\x7d\n" := by
  constructor
  · decide
  · rfl

/-- C3 amended: for snippets with no explicit entry point, when the
extracted body contains a print-style call the block statement wraps the
entire original snippet text (header included) — so the extracted header
appears both once outside the block and again inside it — and when the body
has no print-style call the synthesized entry point contains a
debug-formatting print of the body expression. -/
theorem generate_code_branches (p c : Str)
    (h1 : containsSub (str "fn main()") c = false) :
    ((containsSub (str "println!") (extract_code_headers c).2 ||
        containsSub (str "print!") (extract_code_headers c).2) = true →
      generate_code_to_send p c =
        str "#![allow(warnings)]\n" ++ (extract_code_headers c).1 ++ nl ++ p ++
          str "\nfn main() -> Result<(), Box<dyn std::error::Error>> \x7b\n    " ++
          (str "\x7b\n" ++ c ++ str "\n\x7d;") ++ str "\n    Ok(())\n\x7d\n") ∧
    ((containsSub (str "println!") (extract_code_headers c).2 ||
        containsSub (str "print!") (extract_code_headers c).2) = false →
      generate_code_to_send p c =
        str "#![allow(warnings)]\n" ++ (extract_code_headers c).1 ++ nl ++ p ++
          str "\nfn main() -> Result<(), Box<dyn std::error::Error>> \x7b\n    " ++
          (str "println!(\"\x7b:?\x7d\", \x7b\n        " ++
            (extract_code_headers c).2 ++ str "\n    \x7d);\n") ++
          str "\n    Ok(())\n\x7d\n") ∧
    (extract_code_headers c).1 ++ (extract_code_headers c).2 = c := by
  refine ⟨?_, ?_, extract_split c⟩
  · intro h2
    simp [generate_code_to_send, h1, h2, List.append_assoc]
  · intro h2
    simp [generate_code_to_send, h1, h2, List.append_assoc]

set_option maxRecDepth 100000 in
/-- C3 amended witness: the branch theorem applied to the concrete snippet
`extern crate rand;` + `println!("x")` with an empty prelude. -/
theorem generate_code_branches_witness :
    generate_code_to_send [] (str "extern crate rand;\nprintln!(\"x\")") =
      str "#![allow(warnings)]\n" ++
        (extract_code_headers (str "extern crate rand;\nprintln!(\"x\")")).1 ++
        nl ++ ([] : Str) ++
        str "\nfn main() -> Result<(), Box<dyn std::error::Error>> \x7b\n    " ++
        (str "\x7b\n" ++ str "extern crate rand;\nprintln!(\"x\")" ++
          str "\n\x7d;") ++ str "\n    Ok(())\n\x7d\n" :=
  (generate_code_branches [] (str "extern crate rand;\nprintln!(\"x\")")
      (by decide)).1 (by decide)

/-! ## src/eval/run.rs: `truncate_output` (lines 125–147) -/

/-- `unicode_width`'s `c.width_cjk().unwrap_or(1)` as used by
`truncate_output`: the crate returns `None` for control characters (mapped
to 1 by `unwrap_or`), `Some 0` for zero-width marks, `Some 2` for East
Asian Wide/Fullwidth characters and — in the `_cjk` variant — for the
Ambiguous class, and `Some 1` otherwise.  The Unicode tables are abridged
to their principal ranges; every value is at most 2, which is the only
table fact the general theorems use. -/
def widthCjk (c : Char) : Nat :=
  let v := c.toNat
  if v < 0x20 || (0x7F ≤ v && v < 0xA0) then 1
  else if (0x0300 ≤ v && v ≤ 0x036F) || (0x200B ≤ v && v ≤ 0x200F) ||
      v = 0xFEFF then 0
  else if (0x1100 ≤ v && v ≤ 0x115F) || (0x2E80 ≤ v && v ≤ 0x303E) ||
      (0x3041 ≤ v && v ≤ 0x33FF) || (0x3400 ≤ v && v ≤ 0x4DBF) ||
      (0x4E00 ≤ v && v ≤ 0x9FFF) || (0xA000 ≤ v && v ≤ 0xA4CF) ||
      (0xAC00 ≤ v && v ≤ 0xD7A3) || (0xF900 ≤ v && v ≤ 0xFAFF) ||
      (0xFE30 ≤ v && v ≤ 0xFE4F) || (0xFF00 ≤ v && v ≤ 0xFF60) ||
      (0xFFE0 ≤ v && v ≤ 0xFFE6) || (0x20000 ≤ v && v ≤ 0x3FFFD) then 2
  else if v = 0xA1 || v = 0xA4 || (0xA7 ≤ v && v ≤ 0xA8) || v = 0xAA ||
      (0xAD ≤ v && v ≤ 0xAE) || (0xB0 ≤ v && v ≤ 0xB4) ||
      (0xB6 ≤ v && v ≤ 0xBA) || (0xBC ≤ v && v ≤ 0xBF) || v = 0xC6 ||
      v = 0xD0 || (0xD7 ≤ v && v ≤ 0xD8) || (0xDE ≤ v && v ≤ 0xE1) ||
      v = 0xE6 || (0xE8 ≤ v && v ≤ 0xEA) || (0x0391 ≤ v && v ≤ 0x03A9) ||
      (0x03B1 ≤ v && v ≤ 0x03C9) || v = 0x0401 ||
      (0x0410 ≤ v && v ≤ 0x044F) || v = 0x0451 || v = 0x2010 ||
      (0x2013 ≤ v && v ≤ 0x2016) || (0x2018 ≤ v && v ≤ 0x2019) ||
      (0x201C ≤ v && v ≤ 0x201D) || (0x2020 ≤ v && v ≤ 0x2022) ||
      (0x2024 ≤ v && v ≤ 0x2027) || v = 0x2030 ||
      (0x2032 ≤ v && v ≤ 0x2033) || (0x2190 ≤ v && v ≤ 0x2199) ||
      (0x2460 ≤ v && v ≤ 0x24FF) || (0x2500 ≤ v && v ≤ 0x254B) ||
      (0x25A0 ≤ v && v ≤ 0x25A1) || (0x2605 ≤ v && v ≤ 0x2606) then 2
  else 1

/-- Accumulated display width of a string (the running `column_count`). -/
def widthSum (s : Str) : Nat := (s.map widthCjk).sum

/-- The ellipsis marker appended on truncation. -/
def dots : Str := ['.', '.', '.']

/-- The inner backward loop of `truncate_output`: walk the already-consumed
prefix (given reversed) from its end accumulating display width; once at
least 3 columns have been seen, return the rest of the reversed prefix —
i.e. `output[..pos]` for the truncation point — otherwise `none` (the Rust
loop simply falls through without returning). -/
def innerTruncRev (w : Nat) : Str → Option Str
  | [] => none
  | c :: rest =>
    if w + widthCjk c ≥ 3 then some rest else innerTruncRev (w + widthCjk c) rest

/-- The main scan of `truncate_output`.  `preRev` is the consumed prefix in
reverse, `lineCount`/`colCount` the running counters of the source. -/
def truncGo (maxLines maxCols : Nat) : Str → Nat → Nat → Str → Str
  | preRev, _, _, [] => preRev.reverse
  | preRev, lineCount, colCount, c :: rest =>
    let col := colCount + widthCjk c
    match (if col > maxCols then innerTruncRev 0 preRev else none) with
    | some kept => kept.reverse ++ dots
    | none =>
      if c = '\n' then
        if lineCount + 1 = maxLines then preRev.reverse ++ dots
        else truncGo maxLines maxCols (c :: preRev) (lineCount + 1) col rest
      else truncGo maxLines maxCols (c :: preRev) lineCount col rest

/-- src/eval/run.rs `truncate_output`. -/
def truncate_output (output : Str) (max_lines max_total_columns : Nat) : Str :=
  truncGo max_lines max_total_columns [] 0 0 output

/-! ## src/eval/run.rs: `generate_result_from_response` (lines 149–213) -/

/-- The `Response` JSON payload of src/eval/types.rs. -/
structure Response where
  stderr : Str
  stdout : Str
  success : Bool

/-- The `Channel` enum of src/eval/types.rs. -/
inductive Channel
  | stable
  | beta
  | nightly
deriving DecidableEq

/-- `Channel::as_str`. -/
def Channel.as_str : Channel → Str
  | .stable => str "stable"
  | .beta => str "beta"
  | .nightly => str "nightly"

/-- `htmlescape::encode_minimal` on one character: `&`, `<`, `>` become
named entities, everything else passes through. -/
def encodeMinimalChar (c : Char) : Str :=
  if c = '&' then str "&amp;"
  else if c = '<' then str "&lt;"
  else if c = '>' then str "&gt;"
  else [c]

/-- `htmlescape::encode_minimal`. -/
def encodeMinimal (s : Str) : Str :=
  s.foldr (fun c acc => encodeMinimalChar c ++ acc) []

/-- `htmlescape::encode_attribute` on one character: the five named
entities, then any other character below 256 that is not ASCII alphanumeric
as an uppercase hex entity, everything else verbatim. -/
def encodeAttributeChar (c : Char) : Str :=
  if c = '"' then str "&quot;"
  else if c = '&' then str "&amp;"
  else if c = '\'' then str "&#x27;"
  else if c = '<' then str "&lt;"
  else if c = '>' then str "&gt;"
  else if c.toNat < 256 && (c.toNat > 127 || !c.isAlphanum) then
    str "&#x" ++ (Nat.toDigits 16 c.toNat).map Char.toUpper ++ [';']
  else [c]

/-- `htmlescape::encode_attribute`. -/
def encodeAttribute (s : Str) : Str :=
  s.foldr (fun c acc => encodeAttributeChar c ++ acc) []

/-- The documentation URL built by the `RE_ERROR` replacement closure. -/
def errDocUrl (channel : Channel) (num : Str) : Str :=
  str "https://doc.rust-lang.org/" ++ channel.as_str ++
    str "/error-index.html#" ++ num

/-- `RE_ERROR.replacen(line, 1, ..)` with `RE_ERROR =
^error\[(E\d{4})\]:`: an anchored match of a leading `error[Edddd]:` marker
rewritten into a documentation hyperlink; the second component counts the
replacements performed (0 or 1). -/
def rewriteError (channel : Channel) (line : Str) : Str × Nat :=
  match line with
  | 'e' :: 'r' :: 'r' :: 'o' :: 'r' :: '[' :: 'E' :: d1 :: d2 :: d3 :: d4 ::
      ']' :: ':' :: rest =>
    if d1.isDigit && d2.isDigit && d3.isDigit && d4.isDigit then
      (str "error<a href=\"" ++
        encodeAttribute (errDocUrl channel ['E', d1, d2, d3, d4]) ++
        str "\">[" ++ ['E', d1, d2, d3, d4] ++ str "]</a>:" ++ rest, 1)
    else (line, 0)
  | _ => (line, 0)

/-- Splits at the first backtick, returning the part before it and the part
after it. -/
def splitAtTick : Str → Option (Str × Str)
  | [] => none
  | c :: rest =>
    if c = '`' then some ([], rest)
    else
      match splitAtTick rest with
      | some (a, b) => some (c :: a, b)
      | none => none

/-- After an opening backtick, the non-greedy `(.+?)` of `RE_CODE` takes
the shortest non-empty span up to the next backtick: the first character is
forced content, the closing backtick is the next one after it. -/
def findClose : Str → Option (Str × Str)
  | [] => none
  | c :: rest =>
    match splitAtTick rest with
    | some (a, b) => some (c :: a, b)
    | none => none

/-- Fuelled worker for `rewriteCode`. -/
def rewriteCodeGo : Nat → Str → Str × Nat
  | 0, s => (s, 0)
  | _ + 1, [] => ([], 0)
  | fuel + 1, c :: rest =>
    if c = '`' then
      match findClose rest with
      | some (content, after) =>
        let r := rewriteCodeGo fuel after
        (str "<code>" ++ content ++ str "</code>" ++ r.1, r.2 + 1)
      | none =>
        let r := rewriteCodeGo fuel rest
        (c :: r.1, r.2)
    else
      let r := rewriteCodeGo fuel rest
      (c :: r.1, r.2)

/-- `RE_CODE.replace_all(line, ..)` with ``RE_CODE = `(.+?)` ``: every
backtick-delimited span becomes an inline `<code>` span, leftmost-first,
non-overlapping; the second component counts the replacements. -/
def rewriteCode (s : Str) : Str × Nat := rewriteCodeGo s.length s

/-- Maximal leading run of digits (`\d+`). -/
def takeDigits : Str → Str × Str
  | [] => ([], [])
  | c :: rest =>
    if c.isDigit then
      let r := takeDigits rest
      (c :: r.1, r.2)
    else ([], c :: rest)

/-- Tries `RE_ISSUE = \(see issue #(\d+)\)` at the current position,
returning the captured digits and the remainder after the match. -/
def matchIssueAt (s : Str) : Option (Str × Str) :=
  if (str "(see issue #").isPrefixOf s then
    let t := s.drop (str "(see issue #").length
    let d := takeDigits t
    match d.1, d.2 with
    | [], _ => none
    | _, ')' :: after => some (d.1, after)
    | _, _ => none
  else none

/-- The issue-tracker URL built by the `RE_ISSUE` replacement closure. -/
def issueUrl (num : Str) : Str :=
  str "https://github.com/rust-lang/rust/issues/" ++ num

/-- `RE_ISSUE.replacen(line, 1, ..)`: the leftmost `(see issue #N)` marker
becomes an issue-tracker hyperlink; at most one replacement (the count is
the second component). -/
def rewriteIssue : Str → Str × Nat
  | [] => ([], 0)
  | c :: rest =>
    match matchIssueAt (c :: rest) with
    | some (num, after) =>
      (str "(see issue <a href=\"" ++ issueUrl num ++ str "\">#" ++ num ++
        str "</a>)" ++ after, 1)
    | none =>
      let r := rewriteIssue rest
      (c :: r.1, r.2)

/-- Split on `'\n'` keeping empty fragments (Rust `str::split('\n')`). -/
def splitNl : Str → List Str
  | [] => [[]]
  | c :: rest =>
    if c = '\n' then [] :: splitNl rest
    else
      match splitNl rest with
      | [] => [[c]]
      | l :: ls => (c :: l) :: ls

/-- The stderr line-selection loop of `generate_result_from_response`:
skip build-noise and blank lines, break on the first line starting with
"error", else remember the first non-noise line. -/
def pickGo : List Str → Option Str → Option Str
  | [], acc => acc
  | l :: rest, acc =>
    let t := trim l
    if (str "Compiling").isPrefixOf t || (str "Finished").isPrefixOf t ||
        (str "Running").isPrefixOf t || t = [] then
      pickGo rest acc
    else if (str "error").isPrefixOf t then some t
    else pickGo rest (match acc with | none => some t | some x => some x)

/-- The selected representative stderr line (`return_line`). -/
def pickLine (stderr : Str) : Option Str := pickGo (splitNl stderr) none

/-- src/eval/run.rs `generate_result_from_response`. -/
def generate_result_from_response (resp : Response) (channel : Channel)
    ( is_private : Bool) : Str :=
  if resp.success then
    let output := trim resp.stdout
    let output := if is_private then output else truncate_output output 3 (3 * 72)
    if output = [] then str "(no output)" else encodeMinimal output
  else
    match pickLine resp.stderr with
    | some line =>
      (rewriteIssue (rewriteCode (rewriteError channel (encodeMinimal line)).1).1).1
    | none => str "(nothing??)"

/-! ## Theorems for C4 -/

/-- Helper: the issue rewrite performs at most one replacement. -/
theorem rewriteIssue_le_one (s : Str) : (rewriteIssue s).2 ≤ 1 := by
  induction s with
  | nil => simp [rewriteIssue]
  | cons c rest ih =>
    unfold rewriteIssue
    cases h : matchIssueAt (c :: rest) with
    | some v => simp [h]
    | none => simpa [h] using ih

/-- Helper: the error-marker rewrite performs at most one replacement. -/
theorem rewriteError_le_one (channel : Channel) (l : Str) :
    (rewriteError channel l).2 ≤ 1 := by
  unfold rewriteError
  split
  · split <;> simp
  · simp

set_option maxRecDepth 100000 in
/-- C4 counterexample: on the stderr line ``warning: use `a` and `b` `` the
backtick-to-inline-code enrichment applies twice on the single selected
line (it is a `replace_all`), contradicting "each enrichment applies at
most once per line". -/
theorem code_span_enrichment_twice :
    (rewriteCode (str "warning: use `a` and `b`")).2 = 2 ∧
      generate_result_from_response
          ⟨str "warning: use `a` and `b`", [], false⟩ Channel.nightly false =
        str "warning: use <code>a</code> and <code>b</code>" := by
  constructor
  · decide
  · rfl

/-- C4 amended: of the three enrichments applied to the selected stderr
line, the leading error-marker rewrite and the trailing issue-marker
rewrite each apply at most once per line, while the backtick-to-inline-code
rewrite applies to every backtick-delimited span and can apply more than
once per line (twice on ``warning: use `a` and `b` ``). -/
theorem enrichment_once_except_code_spans :
    (∀ (channel : Channel) (l : Str), (rewriteError channel l).2 ≤ 1) ∧
      (∀ l : Str, (rewriteIssue l).2 ≤ 1) ∧
      (rewriteCode (str "warning: use `a` and `b`")).2 = 2 := by
  refine ⟨rewriteError_le_one, rewriteIssue_le_one, by decide⟩

/-! ## Theorems for C7 -/

/-- Helper: every display width is at most 2. -/
theorem widthCjk_le_two (c : Char) : widthCjk c ≤ 2 := by
  simp only [widthCjk]
  split_ifs <;> omega

/-- Helper: width of a cons. -/
theorem widthSum_cons (c : Char) (l : Str) :
    widthSum (c :: l) = widthCjk c + widthSum l := by
  simp [widthSum]

/-- Helper: width of an append. -/
theorem widthSum_append (a b : Str) :
    widthSum (a ++ b) = widthSum a + widthSum b := by
  simp [widthSum]

/-- Helper: width of a reversal. -/
theorem widthSum_reverse (l : Str) : widthSum l.reverse = widthSum l := by
  simp [widthSum, List.sum_reverse]

/-- Helper: when the walked-back prefix holds at least `3 - w` display
columns, the inner loop of `truncate_output` finds a truncation point, and
the kept part is at least 3 columns narrower than the prefix. -/
theorem innerTruncRev_finds (l : Str) : ∀ w : Nat, w < 3 →
    3 ≤ w + widthSum l →
    ∃ kept, innerTruncRev w l = some kept ∧ widthSum kept + 3 ≤ w + widthSum l := by
  induction l with
  | nil => intro w hw h3; simp [widthSum] at h3; omega
  | cons c rest ih =>
    intro w hw h3
    unfold innerTruncRev
    by_cases h : w + widthCjk c ≥ 3
    · exact ⟨rest, by simp [h], by rw [widthSum_cons]; omega⟩
    · have h3' : 3 ≤ w + widthCjk c + widthSum rest := by
        rw [widthSum_cons] at h3; omega
      obtain ⟨kept, hk, hkw⟩ := ih (w + widthCjk c) (by omega) h3'
      exact ⟨kept, by simp [h, hk], by rw [widthSum_cons]; omega⟩

/-- Helper: the main scan invariant for C7.  With a budget of at least 4,
if the consumed prefix is within budget but the whole input exceeds it, the
scan ends in one of the two `...`-appending returns and the result stays
within budget + 2 columns. -/
theorem truncGo_bounded (ml mc : Nat) (h4 : 4 ≤ mc) :
    ∀ (rest preRev : Str) (lineCount colCount : Nat),
      colCount = widthSum preRev → colCount ≤ mc →
      mc < colCount + widthSum rest →
      (∃ pre, truncGo ml mc preRev lineCount colCount rest = pre ++ dots) ∧
        widthSum (truncGo ml mc preRev lineCount colCount rest) ≤ mc + 2 := by
  intro rest
  induction rest with
  | nil =>
    intro preRev lineCount colCount hpre hle hgt
    exfalso
    simp [widthSum] at hgt
    omega
  | cons c rest' ih =>
    intro preRev lineCount colCount hpre hle hgt
    by_cases hcol : colCount + widthCjk c > mc
    · have hwc := widthCjk_le_two c
      have hpw : 3 ≤ widthSum preRev := by omega
      obtain ⟨kept, hk, hkw⟩ :=
        innerTruncRev_finds preRev 0 (by omega) (by omega)
      have hstep : truncGo ml mc preRev lineCount colCount (c :: rest') =
          kept.reverse ++ dots := by
        unfold truncGo
        simp only [if_pos hcol, hk]
      rw [hstep]
      refine ⟨⟨kept.reverse, rfl⟩, ?_⟩
      rw [widthSum_append, widthSum_reverse]
      have : widthSum dots = 3 := by decide
      omega
    · have hnone : (if colCount + widthCjk c > mc
          then innerTruncRev 0 preRev else none) = none := by
        simp [hcol]
      by_cases hnl : c = '\n'
      · subst hnl
        by_cases hml : lineCount + 1 = ml
        · have hstep : truncGo ml mc preRev lineCount colCount ('\n' :: rest') =
              preRev.reverse ++ dots := by
            unfold truncGo
            simp only [hnone]
            simp [hml]
          rw [hstep]
          refine ⟨⟨preRev.reverse, rfl⟩, ?_⟩
          rw [widthSum_append, widthSum_reverse]
          have hd : widthSum dots = 3 := by decide
          have hwc : widthCjk '\n' = 1 := by decide
          omega
        · have hstep : truncGo ml mc preRev lineCount colCount ('\n' :: rest') =
              truncGo ml mc ('\n' :: preRev) (lineCount + 1)
                (colCount + widthCjk '\n') rest' := by
            conv_lhs => rw [truncGo]
            simp only [hnone]
            simp [hml]
          rw [hstep]
          exact ih ('\n' :: preRev) (lineCount + 1) (colCount + widthCjk '\n')
            (by rw [widthSum_cons]; omega) (by omega)
            (by rw [widthSum_cons] at hgt; omega)
      · have hstep : truncGo ml mc preRev lineCount colCount (c :: rest') =
            truncGo ml mc (c :: preRev) lineCount
              (colCount + widthCjk c) rest' := by
          conv_lhs => rw [truncGo]
          simp only [hnone]
          simp [hnl]
        rw [hstep]
        exact ih (c :: preRev) lineCount (colCount + widthCjk c)
          (by rw [widthSum_cons]; omega) (by omega)
          (by rw [widthSum_cons] at hgt; omega)

/-- C7 counterexample: the claim fails for small column budgets.  With
budget 0 the two-column input "ab" is returned whole, without any ellipsis
marker; with budget 1 and line budget 1 the input "ab\n" becomes "ab...",
which exceeds the budget by 4 columns. -/
theorem truncate_output_small_budget_fails :
    (widthSum (str "ab") > 0 ∧ truncate_output (str "ab") 1 0 = str "ab" ∧
      dots.isSuffixOf (truncate_output (str "ab") 1 0) = false) ∧
    (widthSum (str "ab\n") > 1 ∧
      truncate_output (str "ab\n") 1 1 = str "ab..." ∧
      widthSum (truncate_output (str "ab\n") 1 1) = 1 + 4) := by
  decide

/-- C7 amended: for every input whose accumulated East-Asian-aware display
width exceeds `max_total_columns`, provided the budget is at least 4 (the
deployed budget is 3 × 72 = 216), `truncate_output` returns a string ending
in the ellipsis marker "..." whose total display width never exceeds the
budget by more than 2 columns. -/
theorem truncate_output_bounded (out : Str) (ml mc : Nat) (h4 : 4 ≤ mc)
    (hw : mc < widthSum out) :
    (∃ pre, truncate_output out ml mc = pre ++ dots) ∧
      widthSum (truncate_output out ml mc) ≤ mc + 2 := by
  unfold truncate_output
  exact truncGo_bounded ml mc h4 out [] 0 0 (by simp [widthSum]) (by omega)
    (by simpa [widthSum] using hw)

/-- C7 amended witness: the bound theorem applied to "abcdef" with line
budget 99 and column budget 4. -/
theorem truncate_output_bounded_witness :
    4 ≤ 4 ∧ 4 < widthSum (str "abcdef") ∧
      ((∃ pre, truncate_output (str "abcdef") 99 4 = pre ++ dots) ∧
        widthSum (truncate_output (str "abcdef") 99 4) ≤ 4 + 2) :=
  ⟨by decide, by decide,
    truncate_output_bounded (str "abcdef") 99 4 (by decide) (by decide)⟩

/-! ## src/bot/client.rs: `edit_pre_msg` text shaping (lines 178–206) -/

/-- Strips one trailing carriage return, as Rust `str::lines` does per
line. -/
def stripCr (l : Str) : Str :=
  if l.getLast? = some '\r' then l.dropLast else l

/-- Rust `str::lines`: split on `'\n'`, drop the trailing empty fragment
produced by a final newline, strip one trailing `'\r'` per line. -/
def rustLines (s : Str) : List Str :=
  if s = [] then []
  else
    (if s.getLast? = some '\n' then (splitNl s).dropLast else splitNl s).map
      stripCr

/-- Rust's `Vec::join("\n")` on a list of line fragments. -/
def joinNl : List Str → Str
  | [] => []
  | [l] => l
  | l :: l' :: rest => l ++ '\n' :: joinNl (l' :: rest)

/-- `const MAX_LINES: usize = 30` of `edit_pre_msg`. -/
def MAX_LINES : Nat := 30

/-- `const TRIMMED_HINT` of `edit_pre_msg` — note the constant itself ends
with a newline. -/
def TRIMMED_HINT : Str := str "以上行数被杜叔叔吃掉了！\n"

/-- The text computed by `edit_pre_msg` before it is wrapped into the
`InputMessage`: trim, count lines, and if over the maximum keep the last
`MAX_LINES` lines (via rev/take/push/rev) joined by newlines with the hint
pushed in front. -/
def edit_pre_msg_text (resp : Str) : Str :=
  let trimmed := trim resp
  if (rustLines trimmed).length > MAX_LINES then
    joinNl (((rustLines trimmed).reverse.take MAX_LINES ++
      [TRIMMED_HINT]).reverse)
  else trimmed

/-! ## Helper lemmas about `splitNl`, `joinNl`, `trim`, `rustLines` -/

/-- Helper: splitting never yields an empty fragment list. -/
theorem splitNl_ne_nil (s : Str) : splitNl s ≠ [] := by
  match s with
  | [] => simp [splitNl]
  | c :: rest =>
    unfold splitNl
    by_cases h : c = '\n'
    · simp [h]
    · simp only [h, if_false, ite_false]
      cases hs : splitNl rest <;> simp

/-- Helper: the cons-shape of `splitNl` on a non-newline head. -/
theorem splitNl_cons_ne (c : Char) (rest : Str) (h : ¬c = '\n') :
    splitNl (c :: rest) =
      (c :: (splitNl rest).headD []) :: (splitNl rest).tail := by
  rw [splitNl, if_neg h]
  cases hs : splitNl rest with
  | nil => simp
  | cons l ls => simp

/-- Helper: splitting a newline-free string yields that single fragment. -/
theorem splitNl_of_no_nl (l : Str) (h : ('\n' : Char) ∉ l) :
    splitNl l = [l] := by
  induction l with
  | nil => rfl
  | cons a l' ih =>
    have ha : ¬a = '\n' := fun hc => h (hc ▸ List.mem_cons_self a l')
    have h' : ('\n' : Char) ∉ l' := fun hc => h (List.mem_cons_of_mem a hc)
    rw [splitNl_cons_ne a l' ha, ih h']
    rfl

/-- Helper: splitting distributes over a newline-free fragment followed by
an explicit newline. -/
theorem splitNl_append_nl (l t : Str) (h : ('\n' : Char) ∉ l) :
    splitNl (l ++ '\n' :: t) = l :: splitNl t := by
  induction l with
  | nil => simp [splitNl]
  | cons a l' ih =>
    have ha : ¬a = '\n' := fun hc => h (hc ▸ List.mem_cons_self a l')
    have h' : ('\n' : Char) ∉ l' := fun hc => h (List.mem_cons_of_mem a hc)
    rw [List.cons_append, splitNl_cons_ne a _ ha, ih h']
    rfl

/-- Helper: splitting inverts joining for nonempty lists of newline-free
fragments. -/
theorem splitNl_joinNl (L : List Str) (hne : L ≠ [])
    (h : ∀ l ∈ L, ('\n' : Char) ∉ l) : splitNl (joinNl L) = L := by
  induction L with
  | nil => exact absurd rfl hne
  | cons l rest ih =>
    cases rest with
    | nil => exact splitNl_of_no_nl l (h l (List.mem_cons_self l []))
    | cons l' rest' =>
      show splitNl (l ++ '\n' :: joinNl (l' :: rest')) = _
      rw [splitNl_append_nl l _ (h l (List.mem_cons_self l _)),
        ih (by simp) (fun x hx => h x (List.mem_cons_of_mem l hx))]

/-- Helper: every fragment of a split is newline-free. -/
theorem no_nl_mem_splitNl (s : Str) : ∀ l ∈ splitNl s, ('\n' : Char) ∉ l := by
  induction s with
  | nil =>
    intro l hl
    simp [splitNl] at hl
    simp [hl]
  | cons c rest ih =>
    intro l hl
    by_cases hc : c = '\n'
    · subst hc
      unfold splitNl at hl
      simp only [if_pos rfl, ite_true, List.mem_cons] at hl
      rcases hl with rfl | hl
      · simp
      · exact ih l hl
    · rw [splitNl_cons_ne c rest hc, List.mem_cons] at hl
      rcases hl with rfl | hl
      · intro hmem
        rcases List.mem_cons.mp hmem with rfl | hmem'
        · exact hc rfl
        · cases hsr : splitNl rest with
          | nil => exact absurd hsr (splitNl_ne_nil rest)
          | cons x xs =>
            rw [hsr] at hmem'
            exact ih x (hsr ▸ List.mem_cons_self x xs) hmem'
      · cases hsr : splitNl rest with
        | nil => exact absurd hsr (splitNl_ne_nil rest)
        | cons x xs =>
          rw [hsr] at hl
          exact ih l (hsr ▸ List.mem_cons_of_mem x hl)

/-- Helper: every character of every fragment of a split occurs in the
split string. -/
theorem mem_of_mem_splitNl (s : Str) :
    ∀ l ∈ splitNl s, ∀ c ∈ l, c ∈ s := by
  induction s with
  | nil =>
    intro l hl c hc
    simp [splitNl] at hl
    subst hl
    simp at hc
  | cons a rest ih =>
    intro l hl c hc
    by_cases ha : a = '\n'
    · subst ha
      unfold splitNl at hl
      simp only [if_pos rfl, ite_true, List.mem_cons] at hl
      rcases hl with rfl | hl
      · simp at hc
      · exact List.mem_cons_of_mem _ (ih l hl c hc)
    · rw [splitNl_cons_ne a rest ha, List.mem_cons] at hl
      cases hsr : splitNl rest with
      | nil => exact absurd hsr (splitNl_ne_nil rest)
      | cons x xs =>
        rw [hsr] at hl
        rcases hl with rfl | hl
        · simp only [List.headD_cons] at hc
          rcases List.mem_cons.mp hc with rfl | hc'
          · exact List.mem_cons_self c rest
          · exact List.mem_cons_of_mem a
              (ih x (hsr ▸ List.mem_cons_self x xs) c hc')
        · simp only [List.tail_cons] at hl
          exact List.mem_cons_of_mem a
            (ih l (hsr ▸ List.mem_cons_of_mem x hl) c hc)

/-- Helper: the head surviving a `dropWhile` falsifies the predicate. -/
theorem dropWhile_head_not (p : Char → Bool) (t : Str) (c : Char)
    (h : (t.dropWhile p).head? = some c) : p c = false := by
  induction t with
  | nil => simp [List.dropWhile] at h
  | cons a t' ih =>
    rw [List.dropWhile_cons] at h
    by_cases hp : p a = true
    · rw [if_pos hp] at h
      exact ih h
    · rw [if_neg hp] at h
      simp only [List.head?_cons, Option.some.injEq] at h
      subst h
      simpa using hp

/-- Helper: the last character of a trimmed string is not whitespace. -/
theorem trim_getLast_not_ws (s : Str) (c : Char)
    (h : (trim s).getLast? = some c) : isRustWhitespace c = false := by
  unfold trim at h
  rw [List.getLast?_reverse] at h
  exact dropWhile_head_not isRustWhitespace _ c h

/-- Helper: trimming only removes characters. -/
theorem mem_trim (s : Str) (c : Char) (h : c ∈ trim s) : c ∈ s := by
  unfold trim at h
  rw [List.mem_reverse] at h
  have h1 := (List.dropWhile_sublist isRustWhitespace).mem h
  rw [List.mem_reverse] at h1
  exact (List.dropWhile_sublist isRustWhitespace).mem h1

/-- Helper: a cons with nonempty tail has the tail's last element. -/
theorem getLast?_cons_ne_nil {α : Type} (a : α) (l : List α) (h : l ≠ []) :
    (a :: l).getLast? = l.getLast? := by
  have := List.getLast?_append_of_ne_nil [a] h
  simpa using this

/-- Helper: dropping strictly fewer elements than the length preserves the
last element. -/
theorem getLast?_drop_lt {α : Type} (l : List α) (k : Nat)
    (h : k < l.length) : (l.drop k).getLast? = l.getLast? := by
  conv_rhs => rw [← List.take_append_drop k l]
  rw [List.getLast?_append_of_ne_nil]
  intro hd
  have := List.length_drop k l
  rw [hd] at this
  simp at this
  omega

/-- Helper: taking from the reversal and reversing back is dropping from
the front. -/
theorem reverse_take_reverse {α : Type} (l : List α) (n : Nat)
    (h : n ≤ l.length) :
    (l.reverse.take n).reverse = l.drop (l.length - n) := by
  have h1 : l.reverse =
      (l.drop (l.length - n)).reverse ++ (l.take (l.length - n)).reverse := by
    rw [← List.reverse_append, List.take_append_drop]
  rw [h1, List.take_left', List.reverse_reverse]
  rw [List.length_reverse, List.length_drop]
  omega

/-- Helper: the last fragment of a join is the last listed fragment. -/
theorem joinNl_getLast (L : List Str) (x : Str)
    (hx : L.getLast? = some x) (hxe : x ≠ []) :
    (joinNl L).getLast? = x.getLast? := by
  induction L with
  | nil => simp at hx
  | cons l rest ih =>
    cases rest with
    | nil =>
      simp only [List.getLast?_singleton, Option.some.injEq] at hx
      subst hx
      rfl
    | cons l' rest' =>
      rw [getLast?_cons_ne_nil l (l' :: rest') (by simp)] at hx
      have hj := ih hx
      have hjne : joinNl (l' :: rest') ≠ [] := by
        intro hd
        rw [hd] at hj
        simp only [List.getLast?_nil] at hj
        obtain ⟨y, hy⟩ := List.exists_mem_of_ne_nil x hxe
        cases hg : x.getLast? with
        | none => exact hxe (List.getLast?_eq_none_iff.mp hg)
        | some z => rw [hg] at hj; exact Option.noConfusion hj
      show (l ++ '\n' :: joinNl (l' :: rest')).getLast? = _
      rw [List.getLast?_append_of_ne_nil l (by simp),
        getLast?_cons_ne_nil '\n' _ hjne]
      exact hj

/-- Helper: the last fragment of a split ends with the non-newline last
character of the split string. -/
theorem splitNl_getLast_char (s : Str) (c : Char)
    (hs : s.getLast? = some c) (hc : c ≠ '\n') :
    ∃ t, (splitNl s).getLast? = some t ∧ t.getLast? = some c := by
  induction s with
  | nil => simp at hs
  | cons a rest ih =>
    by_cases hrne : rest = []
    · subst hrne
      simp only [List.getLast?_singleton, Option.some.injEq] at hs
      refine ⟨[a], ?_, by simp [hs]⟩
      rw [splitNl_cons_ne a [] (by rw [hs]; exact hc)]
      simp [splitNl]
    · rw [getLast?_cons_ne_nil a rest hrne] at hs
      obtain ⟨t, ht, htc⟩ := ih hs
      by_cases ha : a = '\n'
      · subst ha
        refine ⟨t, ?_, htc⟩
        rw [splitNl, if_pos rfl]
        rw [getLast?_cons_ne_nil [] _ (splitNl_ne_nil rest)]
        exact ht
      · rw [splitNl_cons_ne a rest ha]
        cases hsr : splitNl rest with
        | nil => exact absurd hsr (splitNl_ne_nil rest)
        | cons x xs =>
          rw [hsr] at ht
          cases hxs : xs with
          | nil =>
            subst hxs
            simp only [List.getLast?_singleton, Option.some.injEq] at ht
            have htne : x ≠ [] := by
              intro hd
              rw [hd] at ht
              rw [← ht] at htc
              simp at htc
            refine ⟨a :: x, by simp, ?_⟩
            rw [getLast?_cons_ne_nil a x htne, ht]
            exact htc
          | cons y ys =>
            subst hxs
            refine ⟨t, ?_, htc⟩
            simp only [List.headD_cons, List.tail_cons]
            rw [getLast?_cons_ne_nil _ _ (by simp)]
            rw [getLast?_cons_ne_nil x _ (by simp)] at ht
            exact ht

/-- Helper: mapping a pointwise-identity function is the identity. -/
theorem map_eq_self_of_eq {α : Type} (f : α → α) (L : List α)
    (h : ∀ x ∈ L, f x = x) : L.map f = L := by
  induction L with
  | nil => rfl
  | cons a rest ih =>
    rw [List.map_cons, h a (List.mem_cons_self a rest),
      ih (fun x hx => h x (List.mem_cons_of_mem a hx))]

/-- Helper: `rustLines` is plain `splitNl` when the string is nonempty,
does not end in a newline, and no fragment ends in a carriage return. -/
theorem rustLines_eq_splitNl (s : Str) (hne : s ≠ [])
    (hnl : s.getLast? ≠ some '\n')
    (hcr : ∀ l ∈ splitNl s, l.getLast? ≠ some '\r') :
    rustLines s = splitNl s := by
  unfold rustLines
  rw [if_neg hne, if_neg hnl]
  exact map_eq_self_of_eq stripCr _
    (fun l hl => by unfold stripCr; rw [if_neg (hcr l hl)])

/-- Helper: the two-fragment unfolding of `joinNl`. -/
theorem joinNl_cons_cons (a b : Str) (rest : List Str) :
    joinNl (a :: b :: rest) = a ++ '\n' :: joinNl (b :: rest) := rfl

/-! ## Theorems for C2 -/

set_option maxRecDepth 1000000 in
/-- C2 counterexample: a buffer of 31 one-character lines renders to 32
lines, not the claimed 30 + 1 = 31 — the hint constant itself ends in a
newline, so joining inserts an extra empty line after the hint. -/
theorem render_line_count_off_by_one :
    MAX_LINES < (rustLines (trim (joinNl (List.replicate 31 ['a'])))).length ∧
      (rustLines
          (edit_pre_msg_text (joinNl (List.replicate 31 ['a'])))).length = 32 ∧
      (32 : Nat) ≠ MAX_LINES + 1 := by
  refine ⟨by decide, by decide, by decide⟩

/-- C2 amended: for every carriage-return-free buffer whose trimmed text
has more than `MAX_LINES` (30) lines, the rendered text has exactly
`MAX_LINES + 2` lines: the fixed hint line, one empty line (from the
newline embedded in the hint constant), then exactly the chronologically
last `MAX_LINES` lines of the buffer in their original order. -/
theorem edit_pre_msg_truncation (resp : Str)
    (hr : ('\r' : Char) ∉ resp)
    (hn : MAX_LINES < (rustLines (trim resp)).length) :
    rustLines (edit_pre_msg_text resp) =
      str "以上行数被杜叔叔吃掉了！" :: ([] : Str) ::
        (rustLines (trim resp)).drop
          ((rustLines (trim resp)).length - MAX_LINES) ∧
      (rustLines (edit_pre_msg_text resp)).length = MAX_LINES + 2 := by
  have hM : MAX_LINES = 30 := rfl
  have htne : trim resp ≠ [] := by
    intro h
    rw [h] at hn
    simp [rustLines] at hn
  obtain ⟨c, hc⟩ : ∃ c, (trim resp).getLast? = some c := by
    cases hg : (trim resp).getLast? with
    | none => exact absurd (List.getLast?_eq_none_iff.mp hg) htne
    | some c => exact ⟨c, rfl⟩
  have hcw : isRustWhitespace c = false := trim_getLast_not_ws resp c hc
  have hcn : c ≠ '\n' := by
    intro h
    subst h
    have hws : isRustWhitespace '\n' = true := by decide
    rw [hws] at hcw
    exact Bool.noConfusion hcw
  have hcrmem : ∀ l ∈ splitNl (trim resp), l.getLast? ≠ some '\r' := by
    intro l hl hlast
    have h1 : ('\r' : Char) ∈ l := List.mem_of_mem_getLast? hlast
    have h2 : ('\r' : Char) ∈ trim resp := mem_of_mem_splitNl _ l hl '\r' h1
    exact hr (mem_trim resp '\r' h2)
  have hLs : rustLines (trim resp) = splitNl (trim resp) :=
    rustLines_eq_splitNl _ htne
      (fun h => hcn (by rw [hc] at h; exact Option.some.inj h)) hcrmem
  obtain ⟨tl, htl, htlc⟩ := splitNl_getLast_char (trim resp) c hc hcn
  have htlner : tl ≠ [] := by
    intro h
    rw [h] at htlc
    simp at htlc
  have hkept : ((rustLines (trim resp)).reverse.take MAX_LINES).reverse =
      (rustLines (trim resp)).drop
        ((rustLines (trim resp)).length - MAX_LINES) :=
    reverse_take_reverse _ MAX_LINES (le_of_lt hn)
  have hklen : ((rustLines (trim resp)).drop
      ((rustLines (trim resp)).length - MAX_LINES)).length = MAX_LINES := by
    rw [List.length_drop]
    omega
  have hkne : (rustLines (trim resp)).drop
      ((rustLines (trim resp)).length - MAX_LINES) ≠ [] := by
    intro h
    rw [h] at hklen
    rw [hM] at hklen
    simp at hklen
  have hkLast : ((rustLines (trim resp)).drop
        ((rustLines (trim resp)).length - MAX_LINES)).getLast? =
      (rustLines (trim resp)).getLast? :=
    getLast?_drop_lt _ _ (by omega)
  have hR : edit_pre_msg_text resp =
      joinNl (TRIMMED_HINT :: (rustLines (trim resp)).drop
        ((rustLines (trim resp)).length - MAX_LINES)) := by
    simp only [edit_pre_msg_text]
    rw [if_pos hn]
    congr 1
    rw [List.reverse_append]
    simp only [List.reverse_cons, List.reverse_nil, List.nil_append,
      List.singleton_append, List.cons.injEq]
    exact ⟨trivial, hkept⟩
  have hhint : TRIMMED_HINT = str "以上行数被杜叔叔吃掉了！" ++ ['\n'] := by
    decide
  obtain ⟨k0, ks, hk⟩ : ∃ k0 ks, (rustLines (trim resp)).drop
      ((rustLines (trim resp)).length - MAX_LINES) = k0 :: ks := by
    cases hd : (rustLines (trim resp)).drop
        ((rustLines (trim resp)).length - MAX_LINES) with
    | nil => exact absurd hd hkne
    | cons k0 ks => exact ⟨k0, ks, rfl⟩
  have hR2 : edit_pre_msg_text resp =
      joinNl (str "以上行数被杜叔叔吃掉了！" :: ([] : Str) :: k0 :: ks) := by
    rw [hR, hk, joinNl_cons_cons, hhint, joinNl_cons_cons,
      joinNl_cons_cons]
    simp
  have hmemkept : ∀ l ∈ (rustLines (trim resp)).drop
      ((rustLines (trim resp)).length - MAX_LINES), l ∈ splitNl (trim resp) := by
    intro l hl
    rw [← hLs]
    exact (List.drop_sublist _ _).mem hl
  have hnlfree : ∀ l ∈ (str "以上行数被杜叔叔吃掉了！" :: ([] : Str) ::
      k0 :: ks), ('\n' : Char) ∉ l := by
    intro l hl
    rcases List.mem_cons.mp hl with rfl | hl
    · decide
    rcases List.mem_cons.mp hl with rfl | hl
    · simp
    · exact no_nl_mem_splitNl (trim resp) l (hmemkept l (hk ▸ hl))
  have hsplitR : splitNl (edit_pre_msg_text resp) =
      str "以上行数被杜叔叔吃掉了！" :: ([] : Str) :: k0 :: ks := by
    rw [hR2]
    exact splitNl_joinNl _ (by simp) hnlfree
  have hRlast : (edit_pre_msg_text resp).getLast? = some c := by
    rw [hR2]
    have hlist : (str "以上行数被杜叔叔吃掉了！" :: ([] : Str) ::
        k0 :: ks).getLast? = some tl := by
      rw [getLast?_cons_ne_nil _ _ (by simp),
        getLast?_cons_ne_nil _ _ (by simp)]
      rw [← hk, hkLast, hLs]
      exact htl
    rw [joinNl_getLast _ tl hlist htlner]
    exact htlc
  have hRne : edit_pre_msg_text resp ≠ [] := by
    intro h
    rw [h] at hRlast
    simp at hRlast
  have hRfinal : rustLines (edit_pre_msg_text resp) =
      str "以上行数被杜叔叔吃掉了！" :: ([] : Str) :: k0 :: ks := by
    rw [rustLines_eq_splitNl _ hRne
      (fun h => hcn (by rw [hRlast] at h; exact Option.some.inj h))
      ?_, hsplitR]
    intro l hl hlr
    rw [hsplitR] at hl
    rcases List.mem_cons.mp hl with rfl | hl
    · exact absurd hlr (by decide)
    rcases List.mem_cons.mp hl with rfl | hl
    · simp at hlr
    · exact hcrmem l (hmemkept l (hk ▸ hl)) hlr
  constructor
  · rw [hRfinal, hk]
  · rw [hRfinal]
    have : (k0 :: ks).length = MAX_LINES := by rw [← hk]; exact hklen
    simp only [List.length_cons] at this ⊢
    omega

set_option maxRecDepth 1000000 in
/-- C2 amended witness: the truncation-shape theorem applied to the buffer
of 31 one-character lines. -/
theorem edit_pre_msg_truncation_witness :
    ('\r' : Char) ∉ joinNl (List.replicate 31 ['a']) ∧
      MAX_LINES <
        (rustLines (trim (joinNl (List.replicate 31 ['a'])))).length ∧
      (rustLines (edit_pre_msg_text (joinNl (List.replicate 31 ['a'])))) =
        str "以上行数被杜叔叔吃掉了！" :: ([] : Str) ::
          (rustLines (trim (joinNl (List.replicate 31 ['a'])))).drop
            ((rustLines
              (trim (joinNl (List.replicate 31 ['a'])))).length -
                MAX_LINES) ∧
      (rustLines
          (edit_pre_msg_text (joinNl (List.replicate 31 ['a'])))).length =
        MAX_LINES + 2 := by
  refine ⟨by decide, by decide, ?_⟩
  have h := edit_pre_msg_truncation (joinNl (List.replicate 31 ['a']))
    (by decide) (by decide)
  exact h

/-! ## src/bot/client.rs: `handle_cmd` / `read_buffer_per_tick`
(lines 208–305)

The `tokio::select!` loop is embedded as a step function over an explicit
state, driven by a schedule of branch picks.  A pick of a disabled branch
(a stream whose `done` flag is set, or any pick after the loop has broken)
leaves the state unchanged — `select!` never polls disabled branches.  A
stream pick either appends the next line plus a newline to the buffer or
sets the stream's `done` flag at end-of-stream; a tick pick appends one
render of the current buffer (the `f(msg)` callback, which is
`edit_pre_msg(.., resp, "StdOut")`) and breaks the loop when both streams
are done.  `handle_cmd` seeds the buffer with the `"❯ {cmd}\n"` prompt
line; nothing is appended after the loop and the child's exit status is
never awaited. -/

/-- One branch of the three-way `tokio::select!`. -/
inductive Pick
  | pout
  | perr
  | ptick
deriving DecidableEq

/-- The state of one `read_buffer_per_tick` execution: pending lines of
each stream, the two `done` flags, the shared buffer `msg`, the renders
performed so far, and whether the loop has broken. -/
structure RunSt where
  outRem : List Str
  errRem : List Str
  outDone : Bool
  errDone : Bool
  buf : Str
  renders : List Str
  halted : Bool

/-- One `select!` round. -/
def step (st : RunSt) (p : Pick) : RunSt :=
  if st.halted then st
  else
    match p with
    | .pout =>
      if st.outDone then st
      else
        match st.outRem with
        | l :: rest => { st with outRem := rest, buf := st.buf ++ l ++ ['\n'] }
        | [] => { st with outDone := true }
    | .perr =>
      if st.errDone then st
      else
        match st.errRem with
        | l :: rest => { st with errRem := rest, buf := st.buf ++ l ++ ['\n'] }
        | [] => { st with errDone := true }
    | .ptick =>
      { st with renders := st.renders ++ [edit_pre_msg_text st.buf],
                halted := st.outDone && st.errDone }

/-- Runs a schedule of select rounds. -/
def run (st : RunSt) : List Pick → RunSt
  | [] => st
  | p :: ps => run (step st p) ps

/-- The state at entry of `read_buffer_per_tick` as set up by `handle_cmd`
for a successfully spawned command: prompt line in the buffer, both streams
open, the subprocess's eventual stream lines pending. -/
def initSt (cmd : Str) (outs errs : List Str) : RunSt :=
  { outRem := outs, errRem := errs, outDone := false, errDone := false,
    buf := str "❯ " ++ cmd ++ ['\n'], renders := [], halted := false }

/-! ## Theorems for C1 -/

/-- Invariant of the `,echo hi` execution (stdout produces the single line
"hi", stderr nothing): the buffer is the prompt alone or the prompt plus
"hi", every render shows one of those two, and once the loop has broken the
last render shows the full buffer. -/
def EchoInv (st : RunSt) : Prop :=
  (st.outRem = [str "hi"] ∧ st.buf = str "❯ echo hi\n" ∧ st.outDone = false ∨
    st.outRem = [] ∧ st.buf = str "❯ echo hi\nhi\n") ∧
  st.errRem = [] ∧
  (∀ r ∈ st.renders,
    r = edit_pre_msg_text (str "❯ echo hi\n") ∨
      r = edit_pre_msg_text (str "❯ echo hi\nhi\n")) ∧
  (st.halted = true →
    st.renders.getLast? = some (edit_pre_msg_text (str "❯ echo hi\nhi\n")))

/-- Helper: the invariant is preserved by every select round. -/
theorem echoInv_step (st : RunSt) (p : Pick) (h : EchoInv st) :
    EchoInv (step st p) := by
  obtain ⟨hbuf, herr, hrend, hhalt⟩ := h
  unfold step
  by_cases hh : st.halted = true
  · rw [if_pos hh]
    exact ⟨hbuf, herr, hrend, hhalt⟩
  rw [if_neg hh]
  cases p with
  | pout =>
    by_cases hd : st.outDone = true
    · rw [if_pos hd]
      exact ⟨hbuf, herr, hrend, hhalt⟩
    rw [if_neg hd]
    rcases hbuf with ⟨ho, hb, _⟩ | ⟨ho, hb⟩
    · rw [ho]
      refine ⟨Or.inr ⟨rfl, ?_⟩, herr, hrend, ?_⟩
      · show st.buf ++ str "hi" ++ ['\n'] = _
        rw [hb]
        decide
      · intro hht
        exact hhalt hht
    · rw [ho]
      exact ⟨Or.inr ⟨rfl, hb⟩, herr, hrend, fun hht => hhalt hht⟩
  | perr =>
    by_cases hd : st.errDone = true
    · rw [if_pos hd]
      exact ⟨hbuf, herr, hrend, hhalt⟩
    rw [if_neg hd]
    rw [herr]
    exact ⟨hbuf, rfl, hrend, fun hht => hhalt hht⟩
  | ptick =>
    refine ⟨hbuf, herr, ?_, ?_⟩
    · intro r hr
      rcases List.mem_append.mp hr with hr | hr
      · exact hrend r hr
      · rcases hbuf with ⟨_, hb, _⟩ | ⟨_, hb⟩
        · left
          rw [List.mem_singleton.mp hr, hb]
        · right
          rw [List.mem_singleton.mp hr, hb]
    · intro hht
      show (st.renders ++ [edit_pre_msg_text st.buf]).getLast? = _
      rw [List.getLast?_append_of_ne_nil _ (by simp)]
      simp only [List.getLast?_singleton, Option.some.injEq]
      have hdone : st.outDone = true := by
        have h2 : (st.outDone && st.errDone) = true := hht
        rw [Bool.and_eq_true] at h2
        exact h2.1
      rcases hbuf with ⟨_, _, hfalse⟩ | ⟨_, hb⟩
      · rw [hdone] at hfalse
        exact Bool.noConfusion hfalse
      · rw [hb]

/-- Helper: the invariant holds along every schedule. -/
theorem echoInv_run (picks : List Pick) :
    ∀ st, EchoInv st → EchoInv (run st picks) := by
  induction picks with
  | nil => exact fun st h => h
  | cons p ps ih => exact fun st h => ih _ (echoInv_step st p h)

/-- Helper: the invariant holds initially for `,echo hi`. -/
theorem echoInv_init : EchoInv (initSt (str "echo hi") [str "hi"] []) := by
  refine ⟨Or.inl ⟨rfl, by decide, rfl⟩, rfl, ?_, ?_⟩
  · intro r hr
    simp [initSt] at hr
  · intro h
    simp [initSt] at h

set_option maxRecDepth 1000000 in
/-- C1 counterexample: on the concrete `,echo hi` run (stdout line "hi",
then end-of-stream on both channels, then the tick that breaks the loop)
the final render is exactly "❯ echo hi\nhi" — it contains the line `hi`
but the runner appends no terminal marker: the report neither contains nor
ends with "Done.", and the exit status is never consulted (the model has no
exit-status input at all). -/
theorem echo_hi_no_done_marker :
    route (str ",echo hi") = some (.cmd (str "echo hi")) ∧
      splitWs (str "echo hi") = [str "echo", str "hi"] ∧
      (run (initSt (str "echo hi") [str "hi"] [])
          [Pick.pout, Pick.pout, Pick.perr, Pick.ptick]).halted = true ∧
      (run (initSt (str "echo hi") [str "hi"] [])
          [Pick.pout, Pick.pout, Pick.perr, Pick.ptick]).renders.getLast? =
        some (str "❯ echo hi\nhi") ∧
      str "hi" ∈ rustLines (str "❯ echo hi\nhi") ∧
      containsSub (str "Done.") (str "❯ echo hi\nhi") = false := by
  refine ⟨by decide, by decide, by decide, by decide, by decide, by decide⟩

set_option maxRecDepth 1000000 in
/-- C1 amended: for the `,echo hi` execution, under every select schedule
no render ever contains a "Done." marker, and whenever the loop has broken
(both streams closed and a final tick fired) the last render is exactly
"❯ echo hi\nhi", which contains the line `hi` and ends with it — the
runner performs the final render but appends no terminal marker and never
awaits the exit status. -/
theorem handle_cmd_echo_hi_final (picks : List Pick)
    (hhalt : (run (initSt (str "echo hi") [str "hi"] []) picks).halted = true) :
    (∀ r ∈ (run (initSt (str "echo hi") [str "hi"] []) picks).renders,
        containsSub (str "Done.") r = false) ∧
      (run (initSt (str "echo hi") [str "hi"] []) picks).renders.getLast? =
        some (str "❯ echo hi\nhi") ∧
      str "hi" ∈ rustLines (str "❯ echo hi\nhi") := by
  have hinv := echoInv_run picks _ echoInv_init
  obtain ⟨_, _, hrend, hlast⟩ := hinv
  refine ⟨?_, ?_, by decide⟩
  · intro r hr
    rcases hrend r hr with hr1 | hr1 <;> rw [hr1] <;> decide
  · have := hlast hhalt
    rw [this]
    decide

set_option maxRecDepth 1000000 in
/-- C1 amended witness: the schedule that reads "hi", sees both
end-of-streams, then ticks. -/
theorem handle_cmd_echo_hi_final_witness :
    (∀ r ∈ (run (initSt (str "echo hi") [str "hi"] [])
        [Pick.pout, Pick.pout, Pick.perr, Pick.ptick]).renders,
        containsSub (str "Done.") r = false) ∧
      (run (initSt (str "echo hi") [str "hi"] [])
          [Pick.pout, Pick.pout, Pick.perr, Pick.ptick]).renders.getLast? =
        some (str "❯ echo hi\nhi") ∧
      str "hi" ∈ rustLines (str "❯ echo hi\nhi") :=
  handle_cmd_echo_hi_final [Pick.pout, Pick.pout, Pick.perr, Pick.ptick]
    (by decide)

end Tomorin
